import Mathlib

/-!
Shallow embedding of `model/metric.go` (package `model`): the `Metric`
label-set wrapper and the copy-on-write holder `COWMetric`.

Go maps are reference values.  A `Metric` map value is embedded as
`Option (List (LabelName × LabelValue))`: `none` is the nil map, `some l`
a map whose entries, in iteration order, are the association list `l`
(keys unique — the Go map invariant, stated as `NodupKeys` where a proof
needs it).  Aliasing of map references is made explicit by a small heap:
a `COWMetric` stores the address of the map it wraps, `Metric.Clone`
allocates a fresh cell, and mutation writes through the address, exactly
as the Go code updates the shared or freshly cloned map in place.
-/

abbrev LabelName := String

abbrev LabelValue := String

/-- Entries of a Go `map[LabelName]LabelValue` value: `none` is the nil map. -/
abbrev LabelSet := Option (List (LabelName × LabelValue))

/-- Go: `type Metric LabelSet`. -/
abbrev Metric := LabelSet

/-- Entries of the map in iteration order; the nil map has none. -/
def Metric.pairs (m : Metric) : List (LabelName × LabelValue) :=
  m.getD []

/-- Go map read `v, ok := m[k]` on the entry list: the value stored at the
key, if any. -/
def lookupL : List (LabelName × LabelValue) → LabelName → Option LabelValue
  | [], _ => none
  | p :: l, k => if p.1 = k then some p.2 else lookupL l k

/-- Go map read `m[k]`; reading the nil map is allowed and finds nothing. -/
def Metric.lookup (m : Metric) (k : LabelName) : Option LabelValue :=
  lookupL (Metric.pairs m) k

/-- Go map assignment `m[k] = v` on the entry list: overwrite the entry in
place if the key is present, else append a new entry. -/
def assignL : List (LabelName × LabelValue) → LabelName → LabelValue → List (LabelName × LabelValue)
  | [], k, v => [(k, v)]
  | p :: l, k, v => if p.1 = k then (k, v) :: l else p :: assignL l k v

/-- Go `delete(m, k)` on the entry list: drop the entry with that key. -/
def deleteL : List (LabelName × LabelValue) → LabelName → List (LabelName × LabelValue)
  | [], _ => []
  | p :: l, k => if p.1 = k then deleteL l k else p :: deleteL l k

/-- The Go map invariant: keys are unique. -/
def NodupKeys (l : List (LabelName × LabelValue)) : Prop :=
  (l.map Prod.fst).Nodup

instance (l : List (LabelName × LabelValue)) : Decidable (NodupKeys l) := by
  unfold NodupKeys
  infer_instance

/-- Well-formedness of a Metric value: its entry list has unique keys. -/
def Metric.WF (m : Metric) : Prop :=
  NodupKeys (Metric.pairs m)

instance (m : Metric) : Decidable (Metric.WF m) := by
  unfold Metric.WF
  infer_instance

/-- Go: `func (m Metric) Clone() Metric` — `clone := Metric{}`, then
`clone[k] = v` for every entry of `m`; the result is always a fresh,
non-nil map. -/
def Metric.Clone (m : Metric) : Metric :=
  some ((Metric.pairs m).foldl (fun clone p => assignL clone p.1 p.2) [])

/-- Modelled from the spec: `LabelSet.Equal` lives in the repository's
labelset.go, which is not under src/.  Two label sets are equal iff every
label name maps to the same value in both and neither has labels absent in
the other. -/
def Metric.Equal (m o : Metric) : Bool :=
  ((Metric.pairs m).all fun p => Metric.lookup o p.1 == some p.2) &&
  ((Metric.pairs o).all fun p => Metric.lookup m p.1 == some p.2)

/-- Modelled from the spec: the reserved metric-name label constant
(`MetricNameLabel`, declared in the repository's labels.go, which is not
under src/). -/
def MetricNameLabel : LabelName :=
  "__name__"

/-- Modelled from the spec: Go quoted-string escaping of one character
(`fmt.Sprintf("%q", v)` delegates to `strconv.Quote`, standard library,
not part of this repository): escape embedded quotes, backslashes and
control characters; printable characters stay literal. -/
def quoteChar (c : Char) : List Char :=
  if c = '"' then ['\\', '"']
  else if c = '\\' then ['\\', '\\']
  else if c = '\x07' then ['\\', 'a']
  else if c = '\x08' then ['\\', 'b']
  else if c = '\x0c' then ['\\', 'f']
  else if c = '\n' then ['\\', 'n']
  else if c = '\r' then ['\\', 'r']
  else if c = '\t' then ['\\', 't']
  else if c = '\x0b' then ['\\', 'v']
  else if c.toNat < 0x20 ∨ c.toNat = 0x7f then
    ['\\', 'x', Nat.digitChar (c.toNat / 16), Nat.digitChar (c.toNat % 16)]
  else [c]

/-- Modelled from the spec: Go `strconv.Quote` — the string wrapped in
double quotes with every character escaped by `quoteChar`. -/
def goQuote (s : String) : String :=
  ⟨'"' :: ((s.data.map quoteChar).flatten ++ ['"'])⟩

/-- Go `<` on strings: byte-lexicographic comparison (UTF-8 byte order
coincides with code-point order), here on the character lists. -/
def lexLt : List Char → List Char → Bool
  | [], [] => false
  | [], _ :: _ => true
  | _ :: _, [] => false
  | a :: as, b :: bs => if a = b then lexLt as bs else decide (a < b)

/-- Go `a < b` on strings. -/
def goLess (a b : String) : Bool :=
  lexLt a.data b.data

/-- The reflexive closure used to sort: `a ≤ b` iff not `b < a`. -/
def goLe (a b : String) : Prop :=
  goLess b a = false

instance : DecidableRel goLe := fun a b => by
  unfold goLe
  infer_instance

/-- Go `sort.Strings`: the list sorted byte-lexicographically. -/
def sortStrings (l : List String) : List String :=
  List.insertionSort goLe l

/-- The strings `label=%q(value)` built by the loop in `Metric.String` for
every non-name label, in map iteration order. -/
def labelStrings (m : Metric) : List String :=
  ((Metric.pairs m).filter fun p => decide (p.1 ≠ MetricNameLabel)).map
    fun p => p.1 ++ "=" ++ goQuote p.2

/-- Go: `metricName, hasName := m[MetricNameLabel]` — whether the reserved
metric-name label is present. -/
def Metric.hasName (m : Metric) : Bool :=
  (Metric.lookup m MetricNameLabel).isSome

/-- The metric-name label's value; Go's map read yields the zero value
(the empty string) when the label is absent. -/
def Metric.metricName (m : Metric) : LabelValue :=
  (Metric.lookup m MetricNameLabel).getD ""

/-- Go: `numLabels := len(m) - 1` when the name is present, `len(m)`
otherwise. -/
def Metric.numLabels (m : Metric) : Nat :=
  if Metric.hasName m then (Metric.pairs m).length - 1 else (Metric.pairs m).length

/-- Go: `func (m Metric) String() string` — just the name when the name is
the only label, the empty-set marker when there is nothing at all, else
the name (empty if absent) followed by the brace list of the sorted
`label="value"` strings joined by a comma and a space. -/
def Metric.String (m : Metric) :=
  if Metric.numLabels m = 0 then
    if Metric.hasName m then Metric.metricName m else "\x7b\x7d"
  else
    Metric.metricName m ++ "\x7b" ++ ", ".intercalate (sortStrings (labelStrings m)) ++ "\x7d"

/-- Heap of Go map values: addresses are indices into the allocation
list. -/
structure Heap where
  mem : List Metric

/-- Dereference a map address; a never-allocated address reads as the nil
map. -/
def Heap.read (h : Heap) (a : Nat) : Metric :=
  h.mem.getD a none

/-- Overwrite the map value stored at an address. -/
def Heap.write (h : Heap) (a : Nat) (m : Metric) : Heap :=
  ⟨h.mem.set a m⟩

/-- Allocate a fresh cell holding a map value; returns the new heap and
the fresh address. -/
def Heap.alloc (h : Heap) (m : Metric) : Heap × Nat :=
  (⟨h.mem ++ [m]⟩, h.mem.length)

/-- Go: `type COWMetric struct { Copied bool; Metric Metric }`.  The
`Metric` field holds the address of the wrapped map in the heap. -/
structure COWMetric where
  Copied : Bool
  Metric : Nat

/-- Go: `func (m *COWMetric) doCOW()` — if not yet copied, replace the
wrapped reference with a freshly allocated clone and set the flag. -/
def COWMetric.doCOW (h : Heap) (c : COWMetric) : Heap × COWMetric :=
  if c.Copied then (h, c)
  else
    let am := Heap.alloc h (Metric.Clone (Heap.read h c.Metric))
    (am.1, ⟨true, am.2⟩)

/-- Go: `func (m *COWMetric) Set(ln, lv)` — `doCOW` then `m.Metric[ln] = lv`.
Assigning into a nil map is a Go runtime error, embedded as `none`. -/
def COWMetric.Set (h : Heap) (c : COWMetric) (ln : LabelName) (lv : LabelValue) :
    Option (Heap × COWMetric) :=
  let hc := COWMetric.doCOW h c
  match Heap.read hc.1 hc.2.Metric with
  | none => none
  | some l => some (Heap.write hc.1 hc.2.Metric (some (assignL l ln lv)), hc.2)

/-- Go: `func (m *COWMetric) Del(ln)` — `doCOW` then `delete(m.Metric, ln)`.
Deleting from a nil map is a no-op in Go, so `Del` is total. -/
def COWMetric.Del (h : Heap) (c : COWMetric) (ln : LabelName) : Heap × COWMetric :=
  let hc := COWMetric.doCOW h c
  match Heap.read hc.1 hc.2.Metric with
  | none => hc
  | some l => (Heap.write hc.1 hc.2.Metric (some (deleteL l ln)), hc.2)

/-- Go: `func (m COWMetric) String() string` — value receiver, renders the
currently wrapped map, no state change. -/
def COWMetric.String (h : Heap) (c : COWMetric) :=
  Metric.String (Heap.read h c.Metric)

/-- Modelled from the spec: `json.Marshal` of a label map (standard
library, not part of this repository).  Serializes the current label
mapping only — a canonical JSON object whose quoted `"name":"value"`
members are sorted — and looks at no other field. -/
def marshalMetric (m : Metric) : String :=
  "\x7b" ++ ",".intercalate
    (sortStrings ((Metric.pairs m).map fun p => goQuote p.1 ++ ":" ++ goQuote p.2)) ++ "\x7d"

/-- Go: `func (m COWMetric) MarshalJSON() ([]byte, error)` — value
receiver, `json.Marshal(m.Metric)`: only the wrapped map is serialized,
never the `Copied` flag. -/
def COWMetric.MarshalJSON (h : Heap) (c : COWMetric) :=
  marshalMetric (Heap.read h c.Metric)

/-- One observable operation on a COWMetric, for reasoning about
sequences of calls. -/
inductive COWOp where
  | set (ln : LabelName) (lv : LabelValue)
  | del (ln : LabelName)
  | render
  | marshal

/-- One step of the COWMetric interface.  `render` and `marshal` have
value receivers in the source and only read, so they leave the state
unchanged. -/
def stepOp (s : Heap × COWMetric) : COWOp → Option (Heap × COWMetric)
  | .set ln lv => COWMetric.Set s.1 s.2 ln lv
  | .del ln => some (COWMetric.Del s.1 s.2 ln)
  | .render => some s
  | .marshal => some s

/-- Run a sequence of COWMetric operations. -/
def runOps : Heap × COWMetric → List COWOp → Option (Heap × COWMetric)
  | s, [] => some s
  | s, op :: ops =>
    match stepOp s op with
    | none => none
    | some s' => runOps s' ops

/-- One direct mutation of a plain Metric map through its address:
insertion/overwrite (`m[k] = v`) or deletion (`delete(m, k)`). -/
inductive MapOp where
  | assign (k : LabelName) (v : LabelValue)
  | del (k : LabelName)

/-- Apply one direct map mutation at an address; assigning into the nil
map is a Go runtime error, embedded as `none`. -/
def applyMapOp (h : Heap) (a : Nat) : MapOp → Option Heap
  | .assign k v =>
    match Heap.read h a with
    | none => none
    | some l => some (Heap.write h a (some (assignL l k v)))
  | .del k =>
    match Heap.read h a with
    | none => some h
    | some l => some (Heap.write h a (some (deleteL l k)))

/-- Apply a sequence of direct map mutations at one address. -/
def applyMapOps (h : Heap) (a : Nat) : List MapOp → Option Heap
  | [] => some h
  | op :: ops =>
    match applyMapOp h a op with
    | none => none
    | some h' => applyMapOps h' a ops

/-- Sort label entries by label name (byte-lexicographically), as claim
C3 reads the renderer. -/
def sortPairsByName (l : List (LabelName × LabelValue)) : List (LabelName × LabelValue) :=
  List.insertionSort (fun p q => goLe p.1 q.1) l

/-- Rendering as claim C3 states it, written from the spec's words: just
the name when the name is the only label, the empty-set marker when there
are no labels, else the name (empty if absent) and the brace list of the
non-name labels sorted by label NAME in lexicographic byte order. -/
def renderByName (m : Metric) :=
  let others := (Metric.pairs m).filter fun p => decide (p.1 ≠ MetricNameLabel)
  if Metric.hasName m ∧ others = [] then Metric.metricName m
  else if Metric.pairs m = [] then "\x7b\x7d"
  else
    Metric.metricName m ++ "\x7b" ++
      ", ".intercalate ((sortPairsByName others).map fun p => p.1 ++ "=" ++ goQuote p.2) ++ "\x7d"

/-- The amended rendering: identical to `renderByName` except that the
brace list is ordered by sorting the rendered `label="value"` strings
byte-lexicographically (the order the code's `sort.Strings` call
produces), not by sorting the label names. -/
def renderSorted (m : Metric) :=
  let others := (Metric.pairs m).filter fun p => decide (p.1 ≠ MetricNameLabel)
  if Metric.hasName m ∧ others = [] then Metric.metricName m
  else if Metric.pairs m = [] then "\x7b\x7d"
  else
    Metric.metricName m ++ "\x7b" ++
      ", ".intercalate (sortStrings (others.map fun p => p.1 ++ "=" ++ goQuote p.2)) ++ "\x7d"

/-! ## Association-list lemmas -/

theorem lookupL_eq_none {l : List (LabelName × LabelValue)} {k : LabelName} :
    lookupL l k = none ↔ k ∉ l.map Prod.fst := by
  induction l with
  | nil => simp [lookupL]
  | cons p l ih =>
    by_cases hp : p.1 = k
    · subst hp
      simp [lookupL]
    · simp only [lookupL, if_neg hp, ih, List.map_cons, List.mem_cons]
      constructor
      · intro h hk
        rcases hk with hk | hk
        · exact hp hk.symm
        · exact h hk
      · intro h hk
        exact h (Or.inr hk)

theorem mem_of_lookup {l : List (LabelName × LabelValue)} {k : LabelName} {v : LabelValue}
    (h : lookupL l k = some v) : (k, v) ∈ l := by
  induction l with
  | nil => simp [lookupL] at h
  | cons p l ih =>
    by_cases hp : p.1 = k
    · simp only [lookupL, if_pos hp, Option.some.injEq] at h
      subst h
      subst hp
      exact List.mem_cons_self _ _
    · simp only [lookupL, if_neg hp] at h
      exact List.mem_cons_of_mem _ (ih h)

theorem lookup_of_mem {l : List (LabelName × LabelValue)} {k : LabelName} {v : LabelValue}
    (hnd : NodupKeys l) (h : (k, v) ∈ l) : lookupL l k = some v := by
  induction l with
  | nil => simp at h
  | cons p l ih =>
    rcases List.mem_cons.mp h with h1 | h1
    · subst h1
      simp [lookupL]
    · have hpk : p.1 ≠ k := by
        intro he
        have : k ∈ l.map Prod.fst := List.mem_map.mpr ⟨(k, v), h1, rfl⟩
        have := (List.nodup_cons.mp hnd).1
        rw [he] at this
        exact this ‹k ∈ l.map Prod.fst›
      have hnd' : NodupKeys l := (List.nodup_cons.mp hnd).2
      simp only [lookupL, if_neg hpk]
      exact ih hnd' h1

theorem deleteL_absent {l : List (LabelName × LabelValue)} {k : LabelName}
    (h : lookupL l k = none) : deleteL l k = l := by
  induction l with
  | nil => rfl
  | cons p l ih =>
    by_cases hp : p.1 = k
    · simp [lookupL, if_pos hp] at h
    · simp only [lookupL, if_neg hp] at h
      simp [deleteL, if_neg hp, ih h]

theorem lookupL_append_none {a b : List (LabelName × LabelValue)} {k : LabelName}
    (ha : lookupL a k = none) (hb : lookupL b k = none) : lookupL (a ++ b) k = none := by
  induction a with
  | nil => simpa using hb
  | cons p a ih =>
    by_cases hp : p.1 = k
    · simp [lookupL, if_pos hp] at ha
    · simp only [lookupL, if_neg hp] at ha
      simp only [List.cons_append, lookupL, if_neg hp]
      exact ih ha

theorem assignL_fresh {l : List (LabelName × LabelValue)} {k : LabelName} (v : LabelValue)
    (h : lookupL l k = none) : assignL l k v = l ++ [(k, v)] := by
  induction l with
  | nil => rfl
  | cons p l ih =>
    by_cases hp : p.1 = k
    · simp [lookupL, if_pos hp] at h
    · simp only [lookupL, if_neg hp] at h
      simp [assignL, if_neg hp, ih h]

theorem foldl_assign_fresh :
    ∀ (l acc : List (LabelName × LabelValue)), NodupKeys l →
      (∀ k, k ∈ l.map Prod.fst → lookupL acc k = none) →
      l.foldl (fun c p => assignL c p.1 p.2) acc = acc ++ l := by
  intro l
  induction l with
  | nil =>
    intro acc _ _
    simp
  | cons p l ih =>
    intro acc hnd hfresh
    have hstep : assignL acc p.1 p.2 = acc ++ [(p.1, p.2)] :=
      assignL_fresh _ (hfresh p.1 (by simp))
    have hnd' : NodupKeys l := (List.nodup_cons.mp hnd).2
    have hnotin : p.1 ∉ l.map Prod.fst := (List.nodup_cons.mp hnd).1
    have hfresh' : ∀ k, k ∈ l.map Prod.fst → lookupL (acc ++ [(p.1, p.2)]) k = none := by
      intro k hk
      have hkp : p.1 ≠ k := fun he => hnotin (he ▸ hk)
      refine lookupL_append_none (hfresh k (by simp [hk])) ?_
      simp [lookupL, if_neg hkp]
    calc (p :: l).foldl (fun c q => assignL c q.1 q.2) acc
        = l.foldl (fun c q => assignL c q.1 q.2) (assignL acc p.1 p.2) := by
          simp [List.foldl_cons]
      _ = (acc ++ [(p.1, p.2)]) ++ l := by rw [hstep, ih _ hnd' hfresh']
      _ = acc ++ p :: l := by simp

/-- Under the Go map invariant, cloning reproduces exactly the original
entries (into a fresh, always non-nil map). -/
theorem Metric.Clone_eq {m : Metric} (h : Metric.WF m) :
    Metric.Clone m = some (Metric.pairs m) := by
  unfold Metric.Clone
  rw [foldl_assign_fresh _ [] h (fun k _ => rfl)]
  rfl

/-! ## Byte-lexicographic string order: total, transitive, antisymmetric -/

theorem lexLt_asymm : ∀ {a b : List Char}, lexLt a b = true → lexLt b a = false := by
  intro a
  induction a with
  | nil =>
    intro b h
    cases b with
    | nil => simp [lexLt] at h
    | cons x xs => simp [lexLt]
  | cons x xs ih =>
    intro b h
    cases b with
    | nil => simp [lexLt] at h
    | cons y ys =>
      by_cases hxy : x = y
      · subst hxy
        simp only [lexLt, if_pos rfl] at h ⊢
        exact ih h
      · simp only [lexLt, if_neg hxy] at h
        have hlt : x < y := of_decide_eq_true h
        have : ¬ y < x := lt_asymm hlt
        have hyx : ¬ y = x := fun he => hxy he.symm
        simp [lexLt, if_neg hyx, this]

theorem lexLt_trans : ∀ {a b c : List Char},
    lexLt a b = true → lexLt b c = true → lexLt a c = true := by
  intro a
  induction a with
  | nil =>
    intro b c hab hbc
    cases b with
    | nil => simp [lexLt] at hab
    | cons y ys =>
      cases c with
      | nil => simp [lexLt] at hbc
      | cons z zs => simp [lexLt]
  | cons x xs ih =>
    intro b c hab hbc
    cases b with
    | nil => simp [lexLt] at hab
    | cons y ys =>
      cases c with
      | nil => simp [lexLt] at hbc
      | cons z zs =>
        by_cases hxy : x = y
        · subst hxy
          simp only [lexLt, if_pos rfl] at hab
          by_cases hyz : x = z
          · subst hyz
            simp only [lexLt, if_pos rfl] at hbc ⊢
            exact ih hab hbc
          · simp only [lexLt, if_neg hyz] at hbc ⊢
            exact hbc
        · simp only [lexLt, if_neg hxy] at hab
          have hlt1 : x < y := of_decide_eq_true hab
          by_cases hyz : y = z
          · subst hyz
            simp [lexLt, if_neg hxy, hlt1]
          · simp only [lexLt, if_neg hyz] at hbc
            have hlt2 : y < z := of_decide_eq_true hbc
            have hlt : x < z := lt_trans hlt1 hlt2
            have hxz : x ≠ z := ne_of_lt hlt
            simp [lexLt, if_neg hxz, hlt]

theorem lexLt_eq_of_not : ∀ {a b : List Char},
    lexLt a b = false → lexLt b a = false → a = b := by
  intro a
  induction a with
  | nil =>
    intro b hab _
    cases b with
    | nil => rfl
    | cons y ys => simp [lexLt] at hab
  | cons x xs ih =>
    intro b hab hba
    cases b with
    | nil => simp [lexLt] at hba
    | cons y ys =>
      by_cases hxy : x = y
      · subst hxy
        simp only [lexLt, if_pos rfl] at hab hba
        rw [ih hab hba]
      · simp only [lexLt, if_neg hxy, decide_eq_false_iff_not] at hab
        simp only [lexLt, if_neg (fun he : y = x => hxy he.symm),
          decide_eq_false_iff_not] at hba
        exact absurd (le_antisymm (le_of_not_lt hba) (le_of_not_lt hab)) hxy

instance : IsTotal String goLe := by
  constructor
  intro a b
  by_cases h : goLess b a = false
  · exact Or.inl h
  · right
    have ht : lexLt b.data a.data = true := by
      unfold goLess at h
      exact eq_true_of_ne_false h
    unfold goLe goLess
    exact lexLt_asymm ht

instance : IsTrans String goLe := by
  constructor
  intro a b c hab hbc
  unfold goLe goLess at hab hbc ⊢
  by_cases hca : lexLt c.data a.data = true
  · exfalso
    by_cases hbcd : lexLt b.data c.data = true
    · have : lexLt b.data a.data = true := lexLt_trans hbcd hca
      rw [this] at hab
      exact Bool.true_eq_false.mp hab
    · have hbceq : b.data = c.data :=
        lexLt_eq_of_not (Bool.eq_false_iff.mpr (fun h => hbcd h)) hbc
      rw [← hbceq] at hca
      rw [hca] at hab
      exact Bool.true_eq_false.mp hab
  · exact Bool.eq_false_iff.mpr (fun h => hca h)

instance : IsAntisymm String goLe := by
  constructor
  intro a b hab hba
  unfold goLe goLess at hab hba
  have hd : a.data = b.data := lexLt_eq_of_not hba hab
  exact String.toList_inj.mp hd

/-- Sorting is a function of the multiset: permuted inputs sort to the
same list. -/
theorem sortStrings_congr {l1 l2 : List String} (h : l1.Perm l2) :
    sortStrings l1 = sortStrings l2 :=
  List.eq_of_perm_of_sorted
    ((List.perm_insertionSort goLe l1).trans (h.trans (List.perm_insertionSort goLe l2).symm))
    (List.sorted_insertionSort goLe l1) (List.sorted_insertionSort goLe l2)

/-! ## Equality of label mappings and permutation of entry lists -/

theorem equal_lookup_of_equal {m o : Metric} (h : Metric.Equal m o = true) :
    ∀ k, Metric.lookup m k = Metric.lookup o k := by
  unfold Metric.Equal at h
  rw [Bool.and_eq_true] at h
  obtain ⟨h1, h2⟩ := h
  rw [List.all_eq_true] at h1 h2
  intro k
  cases hmk : Metric.lookup m k with
  | some v =>
    have hmem : (k, v) ∈ Metric.pairs m := mem_of_lookup hmk
    have := h1 _ hmem
    rw [beq_iff_eq] at this
    exact this.symm
  | none =>
    cases hok : Metric.lookup o k with
    | none => rfl
    | some w =>
      have hmem : (k, w) ∈ Metric.pairs o := mem_of_lookup hok
      have := h2 _ hmem
      rw [beq_iff_eq] at this
      rw [this] at hmk
      exact absurd hmk (by simp)

theorem perm_of_lookup_eq {l1 l2 : List (LabelName × LabelValue)}
    (h1 : NodupKeys l1) (h2 : NodupKeys l2)
    (h : ∀ k, lookupL l1 k = lookupL l2 k) : l1.Perm l2 := by
  have hn1 : l1.Nodup := List.Nodup.of_map Prod.fst h1
  have hn2 : l2.Nodup := List.Nodup.of_map Prod.fst h2
  refine List.perm_of_nodup_nodup_toFinset_eq hn1 hn2 (Finset.ext fun p => ?_)
  simp only [List.mem_toFinset]
  constructor
  · intro hp
    have : lookupL l1 p.1 = some p.2 := lookup_of_mem h1 (by simpa using hp)
    rw [h p.1] at this
    simpa using mem_of_lookup this
  · intro hp
    have : lookupL l2 p.1 = some p.2 := lookup_of_mem h2 (by simpa using hp)
    rw [← h p.1] at this
    simpa using mem_of_lookup this

theorem pairs_perm_of_equal {m o : Metric} (hm : Metric.WF m) (ho : Metric.WF o)
    (heq : Metric.Equal m o = true) : (Metric.pairs m).Perm (Metric.pairs o) :=
  perm_of_lookup_eq hm ho (equal_lookup_of_equal heq)

/-- Equal is reflexive over well-formed maps, and a clone compares equal
to the original. -/
theorem equal_clone {m : Metric} (hm : Metric.WF m) :
    Metric.Equal m (Metric.Clone m) = true := by
  rw [Metric.Clone_eq hm]
  unfold Metric.Equal
  rw [Bool.and_eq_true, List.all_eq_true, List.all_eq_true]
  have hp : Metric.pairs (some (Metric.pairs m)) = Metric.pairs m := rfl
  constructor
  · intro p hmem
    rw [beq_iff_eq]
    show lookupL (Metric.pairs m) p.1 = some p.2
    exact lookup_of_mem hm (by simpa using hmem)
  · intro p hmem
    rw [beq_iff_eq]
    rw [hp] at hmem
    exact lookup_of_mem hm (by simpa using hmem)

/-! ## Heap lemmas -/

theorem read_append_self (mem : List Metric) (m : Metric) :
    Heap.read ⟨mem ++ [m]⟩ mem.length = m := by
  unfold Heap.read
  rw [List.getD_eq_getElem?_getD, List.getElem?_concat_length]
  rfl

theorem read_append_lt (mem : List Metric) (m : Metric) {b : Nat} (hb : b < mem.length) :
    Heap.read ⟨mem ++ [m]⟩ b = Heap.read ⟨mem⟩ b := by
  unfold Heap.read
  rw [List.getD_eq_getElem?_getD, List.getD_eq_getElem?_getD, List.getElem?_append_left hb]

theorem read_write_ne (h : Heap) (a b : Nat) (m : Metric) (hab : b ≠ a) :
    Heap.read (Heap.write h a m) b = Heap.read h b := by
  unfold Heap.read Heap.write
  rw [List.getD_eq_getElem?_getD, List.getD_eq_getElem?_getD,
    List.getElem?_set_ne (fun he => hab he.symm)]

/-- Writing back the exact value a cell already holds leaves the heap
unchanged. -/
theorem write_read_self {h : Heap} {a : Nat} {l : List (LabelName × LabelValue)}
    (hra : Heap.read h a = some l) : Heap.write h a (some l) = h := by
  unfold Heap.read at hra
  unfold Heap.write
  by_cases hlt : a < h.mem.length
  · have hcell : h.mem[a]? = some (some l) := by
      rw [List.getD_eq_getElem?_getD] at hra
      cases hc : h.mem[a]? with
      | none => rw [hc] at hra; simp at hra
      | some x => rw [hc] at hra; simp at hra; rw [hra]
    cases h with
    | mk mem =>
      congr 1
      apply List.ext_getElem?
      intro n
      by_cases hn : n = a
      · subst hn
        rw [List.getElem?_set_self hlt]
        exact hcell.symm
      · exact List.getElem?_set_ne (fun he => hn he.symm)
  · cases h with
    | mk mem =>
      congr 1
      exact List.set_eq_of_length_le (by omega)

/-! ## Computation lemmas for doCOW, Set and Del -/

theorem doCOW_borrowed {h : Heap} {c : COWMetric} (hb : c.Copied = false) :
    COWMetric.doCOW h c =
      (⟨h.mem ++ [Metric.Clone (Heap.read h c.Metric)]⟩, ⟨true, h.mem.length⟩) := by
  unfold COWMetric.doCOW Heap.alloc
  rw [hb]
  simp

theorem doCOW_owned {h : Heap} {c : COWMetric} (hb : c.Copied = true) :
    COWMetric.doCOW h c = (h, c) := by
  unfold COWMetric.doCOW
  rw [hb]
  simp

theorem set_borrowed_eq {h : Heap} {c : COWMetric} {ln : LabelName} {lv : LabelValue}
    (hb : c.Copied = false) :
    COWMetric.Set h c ln lv =
      some (Heap.write ⟨h.mem ++ [Metric.Clone (Heap.read h c.Metric)]⟩ h.mem.length
              (some (assignL (Metric.pairs (Metric.Clone (Heap.read h c.Metric))) ln lv)),
            ⟨true, h.mem.length⟩) := by
  unfold COWMetric.Set
  rw [doCOW_borrowed hb]
  simp only [read_append_self, Metric.Clone, Metric.pairs, Option.getD_some]

theorem del_borrowed_eq {h : Heap} {c : COWMetric} {ln : LabelName}
    (hb : c.Copied = false) :
    COWMetric.Del h c ln =
      (Heap.write ⟨h.mem ++ [Metric.Clone (Heap.read h c.Metric)]⟩ h.mem.length
         (some (deleteL (Metric.pairs (Metric.Clone (Heap.read h c.Metric))) ln)),
       ⟨true, h.mem.length⟩) := by
  unfold COWMetric.Del
  rw [doCOW_borrowed hb]
  simp only [read_append_self, Metric.Clone, Metric.pairs, Option.getD_some]

theorem set_owned_eq {h : Heap} {c : COWMetric} {ln : LabelName} {lv : LabelValue}
    {l : List (LabelName × LabelValue)}
    (hb : c.Copied = true) (hr : Heap.read h c.Metric = some l) :
    COWMetric.Set h c ln lv = some (Heap.write h c.Metric (some (assignL l ln lv)), c) := by
  unfold COWMetric.Set
  rw [doCOW_owned hb]
  simp only [hr]

theorem del_owned_eq {h : Heap} {c : COWMetric} {ln : LabelName}
    {l : List (LabelName × LabelValue)}
    (hb : c.Copied = true) (hr : Heap.read h c.Metric = some l) :
    COWMetric.Del h c ln = (Heap.write h c.Metric (some (deleteL l ln)), c) := by
  unfold COWMetric.Del
  rw [doCOW_owned hb]
  simp only [hr]

theorem read_write_self (h : Heap) (a : Nat) (m : Metric) (ha : a < h.mem.length) :
    Heap.read (Heap.write h a m) a = m := by
  unfold Heap.read Heap.write
  rw [List.getD_eq_getElem?_getD, List.getElem?_set_self ha]
  rfl

theorem read_some_lt {h : Heap} {a : Nat} {l : List (LabelName × LabelValue)}
    (hr : Heap.read h a = some l) : a < h.mem.length := by
  by_contra hge
  unfold Heap.read at hr
  rw [List.getD_eq_getElem?_getD, List.getElem?_eq_none (by omega)] at hr
  simp at hr

theorem filter_ne_of_absent {l : List (LabelName × LabelValue)} {k : LabelName}
    (h : lookupL l k = none) : (l.filter fun p => decide (p.1 ≠ k)) = l := by
  induction l with
  | nil => rfl
  | cons p l ih =>
    by_cases hp : p.1 = k
    · simp [lookupL, if_pos hp] at h
    · simp only [lookupL, if_neg hp] at h
      have hd : (decide (p.1 ≠ k)) = true := by simp [hp]
      rw [List.filter_cons, if_pos hd, ih h]

theorem length_filter_ne_of_present {l : List (LabelName × LabelValue)} {k : LabelName}
    {v : LabelValue} (hnd : NodupKeys l) (h : lookupL l k = some v) :
    (l.filter fun p => decide (p.1 ≠ k)).length = l.length - 1 := by
  induction l with
  | nil => simp [lookupL] at h
  | cons p l ih =>
    by_cases hp : p.1 = k
    · have habs : lookupL l k = none := by
        rw [lookupL_eq_none]
        rw [← hp]
        exact (List.nodup_cons.mp hnd).1
      have hd : ¬ ((decide (p.1 ≠ k)) = true) := by simp [hp]
      rw [List.filter_cons, if_neg hd, filter_ne_of_absent habs]
      simp
    · simp only [lookupL, if_neg hp] at h
      have hnd' : NodupKeys l := (List.nodup_cons.mp hnd).2
      have hpos : 1 ≤ l.length := List.length_pos.mpr (by
        intro he
        rw [he] at h
        simp [lookupL] at h)
      have hd : (decide (p.1 ≠ k)) = true := by simp [hp]
      rw [List.filter_cons, if_pos hd, List.length_cons, List.length_cons, ih hnd' h]
      omega

/-! ## Frame lemmas for direct map mutation and COWMetric steps -/

theorem applyMapOp_frame {x b : Nat} (hne : b ≠ x) {h h1 : Heap} {op : MapOp}
    (happ : applyMapOp h x op = some h1) : Heap.read h1 b = Heap.read h b := by
  cases op with
  | assign k v =>
    unfold applyMapOp at happ
    cases hr : Heap.read h x with
    | none => rw [hr] at happ; exact absurd happ (by simp)
    | some l =>
      rw [hr] at happ
      have := Option.some.inj happ
      rw [← this]
      exact read_write_ne _ _ _ _ hne
  | del k =>
    unfold applyMapOp at happ
    cases hr : Heap.read h x with
    | none =>
      rw [hr] at happ
      have := Option.some.inj happ
      rw [← this]
    | some l =>
      rw [hr] at happ
      have := Option.some.inj happ
      rw [← this]
      exact read_write_ne _ _ _ _ hne

theorem applyMapOps_frame {x b : Nat} (hne : b ≠ x) :
    ∀ (ops : List MapOp) (h h2 : Heap), applyMapOps h x ops = some h2 →
      Heap.read h2 b = Heap.read h b := by
  intro ops
  induction ops with
  | nil =>
    intro h h2 hrun
    unfold applyMapOps at hrun
    rw [← Option.some.inj hrun]
  | cons op ops ih =>
    intro h h2 hrun
    unfold applyMapOps at hrun
    cases happ : applyMapOp h x op with
    | none => rw [happ] at hrun; exact absurd hrun (by simp)
    | some h1 =>
      rw [happ] at hrun
      rw [ih h1 h2 hrun]
      exact applyMapOp_frame hne happ

theorem stepOp_preserves_copied {s s' : Heap × COWMetric} {op : COWOp}
    (hc : s.2.Copied = true) (hs : stepOp s op = some s') : s'.2.Copied = true := by
  cases op with
  | set ln lv =>
    cases hr : Heap.read s.1 s.2.Metric with
    | none =>
      simp only [stepOp, COWMetric.Set, doCOW_owned hc, hr] at hs
      exact Option.noConfusion hs
    | some l =>
      simp only [stepOp, COWMetric.Set, doCOW_owned hc, hr] at hs
      rw [← Option.some.inj hs]
      exact hc
  | del ln =>
    cases hr : Heap.read s.1 s.2.Metric with
    | none =>
      simp only [stepOp, COWMetric.Del, doCOW_owned hc, hr] at hs
      rw [← Option.some.inj hs]
      exact hc
    | some l =>
      simp only [stepOp, COWMetric.Del, doCOW_owned hc, hr] at hs
      rw [← Option.some.inj hs]
      exact hc
  | render =>
    simp only [stepOp] at hs
    rw [← Option.some.inj hs]
    exact hc
  | marshal =>
    simp only [stepOp] at hs
    rw [← Option.some.inj hs]
    exact hc

example : Metric.String (some [("__name__", "up")]) = "up" := by decide

example : Metric.String (none : Metric) = "\x7b\x7d" := by decide

example : Metric.String (some [("foo", "bar")]) = "\x7bfoo=\"bar\"\x7d" := by decide

example :
    Metric.String (some [("__name__", "http_requests_total"), ("method", "GET"), ("code", "200")]) =
      "http_requests_total\x7bcode=\"200\", method=\"GET\"\x7d" := by decide

/-! ## The claims -/

/-- C5: String is deterministic — two well-formed Metrics whose label
mappings are Equal render to the identical string, independent of the
iteration order of the underlying entry lists (and trivially, two calls
on the same unchanged Metric return the same string, String being a pure
function of the value). -/
theorem string_deterministic (m o : Metric) (hm : Metric.WF m) (ho : Metric.WF o)
    (heq : Metric.Equal m o = true) : Metric.String m = Metric.String o := by
  have hlk := equal_lookup_of_equal heq
  have hp : (Metric.pairs m).Perm (Metric.pairs o) := pairs_perm_of_equal hm ho heq
  have hname : Metric.hasName m = Metric.hasName o := by
    unfold Metric.hasName
    rw [hlk]
  have hmn : Metric.metricName m = Metric.metricName o := by
    unfold Metric.metricName
    rw [hlk]
  have hnum : Metric.numLabels m = Metric.numLabels o := by
    unfold Metric.numLabels
    rw [hname, hp.length_eq]
  have hls : sortStrings (labelStrings m) = sortStrings (labelStrings o) :=
    sortStrings_congr (List.Perm.map _ (List.Perm.filter _ hp))
  unfold Metric.String
  rw [hnum, hname, hmn, hls]

theorem string_deterministic_witness :
    Metric.String (some [("a", "1"), ("b", "2")]) =
      Metric.String (some [("b", "2"), ("a", "1")]) :=
  string_deterministic _ _ (by decide) (by decide) (by decide)

/-- C6: Copied is terminal — a successful run of any sequence of Set, Del,
String and MarshalJSON steps started with Copied true ends with Copied
true; no operation transitions back to the borrowed state. -/
theorem copied_is_terminal (ops : List COWOp) :
    ∀ s s' : Heap × COWMetric, s.2.Copied = true → runOps s ops = some s' →
      s'.2.Copied = true := by
  induction ops with
  | nil =>
    intro s s' hc hrun
    unfold runOps at hrun
    rw [← Option.some.inj hrun]
    exact hc
  | cons op ops ih =>
    intro s s' hc hrun
    unfold runOps at hrun
    cases hst : stepOp s op with
    | none => rw [hst] at hrun; exact Option.noConfusion hrun
    | some s1 =>
      rw [hst] at hrun
      exact ih s1 s' (stepOp_preserves_copied hc hst) hrun

theorem copied_is_terminal_witness :
    ((⟨[some []]⟩, ⟨true, 0⟩) : Heap × COWMetric).2.Copied = true :=
  copied_is_terminal [COWOp.set "a" "b", COWOp.del "a", COWOp.render, COWOp.marshal]
    (⟨[some []]⟩, ⟨true, 0⟩) (⟨[some []]⟩, ⟨true, 0⟩) rfl (by rfl)

/-- C7: Del of an absent label on an owned COWMetric is a no-op — the
holder and every heap cell are unchanged — and Del is total (its type is
not Option-valued: per the source, deleting a missing key never fails). -/
theorem del_absent_noop (h : Heap) (c : COWMetric) (ln : LabelName)
    (hc : c.Copied = true)
    (habs : Metric.lookup (Heap.read h c.Metric) ln = none) :
    (COWMetric.Del h c ln).2 = c ∧
    ∀ b, Heap.read (COWMetric.Del h c ln).1 b = Heap.read h b := by
  cases hr : Heap.read h c.Metric with
  | none =>
    have hd : COWMetric.Del h c ln = (h, c) := by
      unfold COWMetric.Del
      rw [doCOW_owned hc]
      simp only [hr]
    rw [hd]
    exact ⟨rfl, fun b => rfl⟩
  | some l =>
    have hlk : lookupL l ln = none := by
      unfold Metric.lookup at habs
      rw [hr] at habs
      exact habs
    have hdel := @del_owned_eq h c ln l hc hr
    rw [deleteL_absent hlk] at hdel
    rw [write_read_self hr] at hdel
    rw [hdel]
    exact ⟨rfl, fun b => rfl⟩

theorem del_absent_noop_witness :
    (COWMetric.Del ⟨[some [("k", "v")]]⟩ ⟨true, 0⟩ "a").2 = (⟨true, 0⟩ : COWMetric) ∧
    Heap.read (COWMetric.Del ⟨[some [("k", "v")]]⟩ ⟨true, 0⟩ "a").1 0 =
      Heap.read ⟨[some [("k", "v")]]⟩ 0 := by
  have H := del_absent_noop ⟨[some [("k", "v")]]⟩ ⟨true, 0⟩ "a" rfl (by decide)
  exact ⟨H.1, H.2 0⟩

/-- C8: MarshalJSON depends only on the wrapped label mapping — two
COWMetrics wrapping Equal well-formed Metrics marshal to the same bytes
whatever the values of their Copied flags — and the marshal step leaves
the COWMetric's state unchanged. -/
theorem marshal_ignores_copied (h : Heap) (c1 c2 : COWMetric)
    (h1 : Metric.WF (Heap.read h c1.Metric)) (h2 : Metric.WF (Heap.read h c2.Metric))
    (heq : Metric.Equal (Heap.read h c1.Metric) (Heap.read h c2.Metric) = true) :
    COWMetric.MarshalJSON h c1 = COWMetric.MarshalJSON h c2 ∧
    stepOp (h, c1) COWOp.marshal = some (h, c1) := by
  constructor
  · have hp := pairs_perm_of_equal h1 h2 heq
    unfold COWMetric.MarshalJSON marshalMetric
    rw [sortStrings_congr (List.Perm.map _ hp)]
  · rfl

theorem marshal_ignores_copied_witness :
    COWMetric.MarshalJSON ⟨[some [("a", "1"), ("b", "2")], some [("b", "2"), ("a", "1")]]⟩
        ⟨false, 0⟩ =
      COWMetric.MarshalJSON ⟨[some [("a", "1"), ("b", "2")], some [("b", "2"), ("a", "1")]]⟩
        ⟨true, 1⟩ ∧
    stepOp (⟨[some [("a", "1"), ("b", "2")], some [("b", "2"), ("a", "1")]]⟩, ⟨false, 0⟩)
        COWOp.marshal =
      some (⟨[some [("a", "1"), ("b", "2")], some [("b", "2"), ("a", "1")]]⟩, ⟨false, 0⟩) :=
  marshal_ignores_copied _ _ _ (by decide) (by decide) (by decide)

/-- C9: Set on a borrowed COWMetric always succeeds, even when the
wrapped Metric is the nil map, because the clone doCOW installs before
the write is always a fresh non-nil map (and Del is total by its very
type). -/
theorem borrowed_set_total (h : Heap) (c : COWMetric) (ln : LabelName) (lv : LabelValue)
    (hb : c.Copied = false) :
    (COWMetric.Set h c ln lv).isSome = true ∧
    (Metric.Clone (Heap.read h c.Metric)).isSome = true := by
  constructor
  · rw [set_borrowed_eq hb]
    rfl
  · rfl

theorem borrowed_set_total_witness :
    (COWMetric.Set ⟨[none]⟩ ⟨false, 0⟩ "a" "b").isSome = true ∧
    (Metric.Clone (Heap.read ⟨[none]⟩ 0)).isSome = true :=
  borrowed_set_total ⟨[none]⟩ ⟨false, 0⟩ "a" "b" rfl

/-- C10: the Metric whose only label is the metric-name label with the
empty string as value renders as the bare (empty) name, not the
empty-set marker; and the marker's branch — no name and no remaining
labels — is taken exactly when the label set has no labels at all. -/
theorem name_only_renders_bare_name :
    Metric.String (some [(MetricNameLabel, "")]) = "" ∧
    Metric.String (some [(MetricNameLabel, "")]) ≠ "\x7b\x7d" ∧
    ∀ m : Metric, (Metric.hasName m = false ∧ Metric.numLabels m = 0) ↔
      Metric.pairs m = [] := by
  refine ⟨by decide, by decide, fun m => ?_⟩
  constructor
  · rintro ⟨hn, hz⟩
    unfold Metric.numLabels at hz
    rw [hn] at hz
    simp only [Bool.false_eq_true, if_false] at hz
    exact List.length_eq_zero.mp hz
  · intro he
    have hn : Metric.hasName m = false := by
      unfold Metric.hasName Metric.lookup
      rw [he]
      rfl
    refine ⟨hn, ?_⟩
    unfold Metric.numLabels
    rw [hn, he]
    simp

/-- C1: COW isolation — Set and Del on a borrowed COWMetric (Copied =
false) leave every previously allocated heap cell unchanged, so the label
mapping observed through any other reference Y to the shared Metric is
untouched, and afterwards the holder's Copied is true. -/
theorem cow_mutation_isolates_shared (h : Heap) (c : COWMetric) (ln : LabelName)
    (lv : LabelValue) (h' : Heap) (c' : COWMetric)
    (hb : c.Copied = false) (hset : COWMetric.Set h c ln lv = some (h', c')) :
    (c'.Copied = true ∧ ∀ b, b < h.mem.length → Heap.read h' b = Heap.read h b) ∧
    ((COWMetric.Del h c ln).2.Copied = true ∧
      ∀ b, b < h.mem.length → Heap.read (COWMetric.Del h c ln).1 b = Heap.read h b) := by
  rw [set_borrowed_eq hb] at hset
  have hp := Option.some.inj hset
  injection hp with hp1 hp2
  refine ⟨⟨?_, ?_⟩, ?_, ?_⟩
  · rw [← hp2]
  · intro b hblt
    rw [← hp1]
    rw [read_write_ne _ _ _ _ (Nat.ne_of_lt hblt)]
    exact read_append_lt h.mem _ hblt
  · rw [del_borrowed_eq hb]
  · intro b hblt
    rw [del_borrowed_eq hb]
    rw [read_write_ne _ _ _ _ (Nat.ne_of_lt hblt)]
    exact read_append_lt h.mem _ hblt

theorem cow_mutation_isolates_shared_witness :
    Heap.read ⟨[some [("k", "v")], some [("k", "v"), ("a", "b")]]⟩ 0 =
      Heap.read ⟨[some [("k", "v")]]⟩ 0 ∧
    (⟨true, 1⟩ : COWMetric).Copied = true ∧
    (COWMetric.Del ⟨[some [("k", "v")]]⟩ ⟨false, 0⟩ "a").2.Copied = true := by
  have H := cow_mutation_isolates_shared ⟨[some [("k", "v")]]⟩ ⟨false, 0⟩ "a" "b"
    ⟨[some [("k", "v")], some [("k", "v"), ("a", "b")]]⟩ ⟨true, 1⟩ rfl (by rfl)
  exact ⟨H.1.2 0 (by decide), H.1.1, H.2.1⟩

/-- C2: the first Set or Del on a not-yet-copied COWMetric performs exactly
one Clone — exactly one fresh cell is allocated, it holds the clone of
the currently wrapped Metric, the holder is repointed at it and Copied is
set — with the edit applied to that clone; once Copied is true, Set and
Del allocate nothing and mutate the same wrapped cell in place. -/
theorem cow_clones_exactly_once (h : Heap) (c : COWMetric) (ln : LabelName) (lv : LabelValue) :
    (c.Copied = false →
      COWMetric.doCOW h c =
        (⟨h.mem ++ [Metric.Clone (Heap.read h c.Metric)]⟩, ⟨true, h.mem.length⟩)) ∧
    (c.Copied = false → ∀ h' c', COWMetric.Set h c ln lv = some (h', c') →
      c'.Copied = true ∧ c'.Metric = h.mem.length ∧ h'.mem.length = h.mem.length + 1 ∧
      Heap.read h' c'.Metric =
        some (assignL (Metric.pairs (Metric.Clone (Heap.read h c.Metric))) ln lv)) ∧
    (c.Copied = false →
      (COWMetric.Del h c ln).2.Copied = true ∧
      (COWMetric.Del h c ln).2.Metric = h.mem.length ∧
      (COWMetric.Del h c ln).1.mem.length = h.mem.length + 1 ∧
      Heap.read (COWMetric.Del h c ln).1 (COWMetric.Del h c ln).2.Metric =
        some (deleteL (Metric.pairs (Metric.Clone (Heap.read h c.Metric))) ln)) ∧
    (c.Copied = true → ∀ h' c', COWMetric.Set h c ln lv = some (h', c') →
      c' = c ∧ h'.mem.length = h.mem.length ∧
      ∀ l, Heap.read h c.Metric = some l →
        Heap.read h' c.Metric = some (assignL l ln lv)) ∧
    (c.Copied = true →
      (COWMetric.Del h c ln).2 = c ∧
      (COWMetric.Del h c ln).1.mem.length = h.mem.length ∧
      ∀ l, Heap.read h c.Metric = some l →
        Heap.read (COWMetric.Del h c ln).1 c.Metric = some (deleteL l ln)) := by
  refine ⟨fun hb => doCOW_borrowed hb, fun hb h' c' hset => ?_, fun hb => ?_,
    fun hc h' c' hset => ?_, fun hc => ?_⟩
  · rw [set_borrowed_eq hb] at hset
    have hp := Option.some.inj hset
    injection hp with hp1 hp2
    subst hp1
    subst hp2
    refine ⟨rfl, rfl, by simp [Heap.write], ?_⟩
    exact read_write_self _ _ _ (by simp)
  · rw [del_borrowed_eq hb]
    refine ⟨rfl, rfl, by simp [Heap.write], ?_⟩
    exact read_write_self _ _ _ (by simp)
  · cases hr : Heap.read h c.Metric with
    | none =>
      unfold COWMetric.Set at hset
      rw [doCOW_owned hc] at hset
      simp only [hr] at hset
      exact Option.noConfusion hset
    | some l =>
      rw [set_owned_eq hc hr] at hset
      have hp := Option.some.inj hset
      injection hp with hp1 hp2
      subst hp1
      subst hp2
      refine ⟨rfl, by simp [Heap.write], fun l0 hl0 => ?_⟩
      rw [← Option.some.inj hl0]
      exact read_write_self _ _ _ (read_some_lt hr)
  · cases hr : Heap.read h c.Metric with
    | none =>
      have hd : COWMetric.Del h c ln = (h, c) := by
        unfold COWMetric.Del
        rw [doCOW_owned hc]
        simp only [hr]
      rw [hd]
      refine ⟨rfl, rfl, fun l0 hl0 => ?_⟩
      exact Option.noConfusion hl0
    | some l =>
      rw [@del_owned_eq h c ln l hc hr]
      refine ⟨rfl, by simp [Heap.write], fun l0 hl0 => ?_⟩
      rw [← Option.some.inj hl0]
      exact read_write_self _ _ _ (read_some_lt hr)

theorem cow_clones_exactly_once_witness :
    COWMetric.doCOW ⟨[some [("k", "v")]]⟩ ⟨false, 0⟩ =
      (⟨[some [("k", "v")], some [("k", "v")]]⟩, ⟨true, 1⟩) ∧
    (COWMetric.Del ⟨[some [("k", "v")]]⟩ ⟨true, 0⟩ "k").1.mem.length = 1 := by
  constructor
  · exact (cow_clones_exactly_once ⟨[some [("k", "v")]]⟩ ⟨false, 0⟩ "a" "b").1 rfl
  · exact ((cow_clones_exactly_once ⟨[some [("k", "v")]]⟩ ⟨true, 0⟩ "a" "b").2.2.2.2 rfl).2.1

/-- C4: a Clone compares Equal to the original, and any sequence of
insertions, overwrites and deletions applied through the freshly
allocated clone's reference leaves the original's cell unchanged, while
mutations through the original's reference leave the clone's cell
unchanged. -/
theorem clone_equal_independent (h : Heap) (a : Nat)
    (ha : a < h.mem.length) (hw : Metric.WF (Heap.read h a)) :
    Metric.Equal (Heap.read h a) (Metric.Clone (Heap.read h a)) = true ∧
    (∀ ops h2, applyMapOps (Heap.alloc h (Metric.Clone (Heap.read h a))).1
        (Heap.alloc h (Metric.Clone (Heap.read h a))).2 ops = some h2 →
      Heap.read h2 a = Heap.read h a) ∧
    (∀ ops h2, applyMapOps (Heap.alloc h (Metric.Clone (Heap.read h a))).1 a ops = some h2 →
      Heap.read h2 (Heap.alloc h (Metric.Clone (Heap.read h a))).2 =
        Heap.read (Heap.alloc h (Metric.Clone (Heap.read h a))).1
          (Heap.alloc h (Metric.Clone (Heap.read h a))).2) := by
  refine ⟨equal_clone hw, ?_, ?_⟩
  · intro ops h2 hrun
    have hne : a ≠ (Heap.alloc h (Metric.Clone (Heap.read h a))).2 := Nat.ne_of_lt ha
    rw [applyMapOps_frame hne ops _ h2 hrun]
    exact read_append_lt h.mem _ ha
  · intro ops h2 hrun
    have hne : (Heap.alloc h (Metric.Clone (Heap.read h a))).2 ≠ a := (Nat.ne_of_lt ha).symm
    exact applyMapOps_frame hne ops _ h2 hrun

theorem clone_equal_independent_witness :
    Metric.Equal (Heap.read ⟨[some [("k", "v")]]⟩ 0)
      (Metric.Clone (Heap.read ⟨[some [("k", "v")]]⟩ 0)) = true ∧
    Heap.read ⟨[some [("k", "v")], some [("k", "v"), ("a", "b")]]⟩ 0 =
      Heap.read ⟨[some [("k", "v")]]⟩ 0 := by
  have H := clone_equal_independent ⟨[some [("k", "v")]]⟩ 0 (by decide) (by decide)
  exact ⟨H.1, H.2.1 [MapOp.assign "a" "b"]
    ⟨[some [("k", "v")], some [("k", "v"), ("a", "b")]]⟩ (by rfl)⟩

/-- C3 counterexample: with labels a="1" and a0="2" the code sorts the
rendered strings, placing a0="2" before a="1" (the byte for the equals
sign sorts above the byte for the zero digit), while sorting by label
name places a before a0 — so String does not render the brace list
sorted by label name, as the claim states. -/
theorem string_not_sorted_by_name :
    Metric.WF (some [("a", "1"), ("a0", "2")]) ∧
    Metric.String (some [("a", "1"), ("a0", "2")]) ≠
      renderByName (some [("a", "1"), ("a0", "2")]) ∧
    Metric.String (some [("a", "1"), ("a0", "2")]) = "\x7ba0=\"2\", a=\"1\"\x7d" ∧
    renderByName (some [("a", "1"), ("a0", "2")]) = "\x7ba=\"1\", a0=\"2\"\x7d" := by
  exact ⟨by decide, by decide, by decide, by decide⟩

/-- C3 (amended): String renders the bare name value when the reserved
metric-name label is the only label, the empty-set marker for the empty
label set, and otherwise the name (empty string when absent) followed by
the brace list of the non-name labels — with the rendered label="value"
strings (values in Go quoted-string escaping) sorted byte-
lexicographically as whole strings, the order the code's sort.Strings
call yields, rather than sorted by label name. -/
theorem string_renders_sorted (m : Metric) (hm : Metric.WF m) :
    Metric.String m = renderSorted m := by
  cases hn : Metric.hasName m with
  | true =>
    have hv' : (Metric.lookup m MetricNameLabel).isSome = true := hn
    obtain ⟨v, hv⟩ := Option.isSome_iff_exists.mp hv'
    have hvL : lookupL (Metric.pairs m) MetricNameLabel = some v := hv
    have hflen : ((Metric.pairs m).filter fun p => decide (p.1 ≠ MetricNameLabel)).length =
        (Metric.pairs m).length - 1 := length_filter_ne_of_present hm hvL
    have hmem := mem_of_lookup hvL
    have hpos : 1 ≤ (Metric.pairs m).length :=
      List.length_pos.mpr (by intro he; rw [he] at hmem; simp at hmem)
    have hnum : Metric.numLabels m = (Metric.pairs m).length - 1 := by
      unfold Metric.numLabels
      rw [hn]
      simp
    by_cases hz : Metric.numLabels m = 0
    · have hothers : ((Metric.pairs m).filter fun p => decide (p.1 ≠ MetricNameLabel)) = [] := by
        apply List.length_eq_zero.mp
        rw [hflen]
        omega
      unfold Metric.String
      rw [if_pos hz, if_pos hn]
      simp only [renderSorted]
      rw [if_pos ⟨hn, hothers⟩]
    · unfold Metric.String
      rw [if_neg hz]
      simp only [renderSorted]
      have hone : ¬(Metric.hasName m = true ∧
          ((Metric.pairs m).filter fun p => decide (p.1 ≠ MetricNameLabel)) = []) := by
        rintro ⟨-, ho⟩
        apply hz
        rw [hnum, ← hflen, ho]
        rfl
      rw [if_neg hone]
      have hpne : ¬ (Metric.pairs m = []) := by
        intro he
        apply hz
        rw [hnum, he]
        rfl
      rw [if_neg hpne]
      rfl
  | false =>
    have habs : Metric.lookup m MetricNameLabel = none := by
      cases hlo : Metric.lookup m MetricNameLabel with
      | none => rfl
      | some v =>
        have ht : Metric.hasName m = true := by
          unfold Metric.hasName
          rw [hlo]
          rfl
        rw [ht] at hn
        exact Bool.noConfusion hn
    have hnum : Metric.numLabels m = (Metric.pairs m).length := by
      unfold Metric.numLabels
      rw [hn]
      simp
    have hone : ¬(Metric.hasName m = true ∧
        ((Metric.pairs m).filter fun p => decide (p.1 ≠ MetricNameLabel)) = []) := by
      rintro ⟨h1, -⟩
      rw [hn] at h1
      exact Bool.noConfusion h1
    by_cases hz : Metric.numLabels m = 0
    · have hpe : Metric.pairs m = [] := List.length_eq_zero.mp (by rw [← hnum]; exact hz)
      unfold Metric.String
      rw [if_pos hz, if_neg (by simp [hn])]
      simp only [renderSorted]
      rw [if_neg hone, if_pos hpe]
    · unfold Metric.String
      rw [if_neg hz]
      simp only [renderSorted]
      rw [if_neg hone]
      rw [if_neg (fun he => hz (by rw [hnum, he]; rfl))]
      rfl

theorem string_renders_sorted_witness :
    Metric.String (some [("__name__", "x"), ("b", "2"), ("a0", "9"), ("a", "1")]) =
      renderSorted (some [("__name__", "x"), ("b", "2"), ("a0", "9"), ("a", "1")]) :=
  string_renders_sorted _ (by decide)
